import Mathlib

/-!
Shallow embedding of the ingestion chunking/merging/enrichment pipeline of
the grimoire-oracle-web repository (scripts/ingest.ts), together with proofs
of the specified properties.

The embedding covers:
- the Chunk data model (pageContent plus a metadata record whose source
  field models the JavaScript value stored under metadata.source);
- mergeSmallChunks, iterative-fold variant (pending accumulator reduce);
- mergeSmallChunks, single-lookahead variant (index/skipNext reduce);
- extractTitleFromPath (vault-relative breadcrumb titles with the
  Classes special case);
- enrichChunksWithMetadata (title prefixing);
- createVectorIndex and the guarded main, modelled as the sequence of
  store operations they issue (delete-all followed by an insert), with an
  Except error for the thrown empty-result Error.
-/

/-- Models the JavaScript value found at metadata.source: a string, the
undefined value, or some other non-string value identified by reference
(two distinct objects compare unequal under strict equality, modelled by
distinct identifiers). -/
inductive SourceVal where
  | str (s : String)
  | undef
  | obj (id : Nat)
deriving DecidableEq

/-- Metadata record of a chunk: the source field plus the remaining
metadata fields, kept opaque (name/value pairs) since the pipeline never
reads them. -/
structure Metadata where
  source : SourceVal
  extra : List (String × Nat)
deriving DecidableEq

/-- Document chunk: pageContent plus metadata, as in the Document type of
the ingest script. -/
structure Chunk where
  pageContent : String
  metadata : Metadata
deriving DecidableEq

/-- Minimum chunk size constant of the ingest script. -/
def MIN_CHUNK_SIZE : Nat := 100

/-- Combination of a pending chunk with the current chunk: contents joined
by a blank-line separator, metadata taken from the pending (first) chunk.
Mirrors the combined object built in the sameSource branch. -/
def mergeCombine (a b : Chunk) : Chunk :=
  { pageContent := a.pageContent ++ "\n\n" ++ b.pageContent
    metadata := a.metadata }

/-- Accumulator of the iterative-fold mergeSmallChunks reduce: output list
so far plus an optional pending chunk. -/
structure MergeAcc where
  merged : List Chunk
  pending : Option Chunk
deriving DecidableEq

/-- One step of the iterative-fold mergeSmallChunks reduce, translated
branch for branch from the reducer in the ingest script. -/
def mergeStep (acc : MergeAcc) (current : Chunk) : MergeAcc :=
  match acc.pending with
  | none =>
    if current.pageContent.length < MIN_CHUNK_SIZE then
      { merged := acc.merged, pending := some current }
    else
      { merged := acc.merged ++ [current], pending := none }
  | some p =>
    if p.metadata.source = current.metadata.source then
      if (mergeCombine p current).pageContent.length < MIN_CHUNK_SIZE then
        { merged := acc.merged, pending := some (mergeCombine p current) }
      else
        { merged := acc.merged ++ [mergeCombine p current], pending := none }
    else
      if current.pageContent.length < MIN_CHUNK_SIZE then
        { merged := acc.merged ++ [p], pending := some current }
      else
        { merged := acc.merged ++ [p] ++ [current], pending := none }

/-- The iterative-fold variant of mergeSmallChunks: reduce with a pending
accumulator, then append the remaining pending chunk if any. -/
def mergeSmallChunks (chunks : List Chunk) : List Chunk :=
  match chunks.foldl mergeStep { merged := [], pending := none } with
  | { merged := m, pending := some p } => m ++ [p]
  | { merged := m, pending := none } => m

/-- Accumulator of the single-lookahead mergeSmallChunks reduce: output
list so far plus the skipNext flag. -/
structure LookAcc where
  merged : List Chunk
  skipNext : Bool
deriving DecidableEq

/-- One step of the single-lookahead mergeSmallChunks reduce. The whole
input list is in scope (the reducer body indexes chunks at index + 1; an
out-of-range access yields undefined, modelled by Option). -/
def lookStep (chunks : List Chunk) (acc : LookAcc) (ic : Nat × Chunk) : LookAcc :=
  if acc.skipNext then
    { merged := acc.merged, skipNext := false }
  else
    match chunks[ic.1 + 1]? with
    | some next =>
      if ic.2.pageContent.length < MIN_CHUNK_SIZE ∧
          ic.2.metadata.source = next.metadata.source then
        { merged := acc.merged ++ [mergeCombine ic.2 next], skipNext := true }
      else
        { merged := acc.merged ++ [ic.2], skipNext := false }
    | none =>
      { merged := acc.merged ++ [ic.2], skipNext := false }

/-- The single-lookahead variant of mergeSmallChunks (the older iteration
of the component kept in the repository): merges an undersized chunk with
exactly the next chunk once, skipping it, and never re-examines the
result. -/
def mergeSmallChunksLookahead (chunks : List Chunk) : List Chunk :=
  (chunks.enum.foldl (lookStep chunks) { merged := [], skipNext := false }).merged

/-- Strips a leading ordering mark from a path segment, as the regex
replace of a leading digit run, an optional lowercase letter, a dot or
dash, and trailing whitespace does (with the regex's backtracking: when
the optional letter is taken the next character must be the dot or dash,
otherwise the letter position itself must hold the dot or dash, else the
whole match fails and the segment is returned unchanged). -/
def stripOrderMark (s : List Char) : List Char :=
  let ds := s.takeWhile Char.isDigit
  if ds.isEmpty then s
  else
    match s.drop ds.length with
    | [] => s
    | c1 :: rest1 =>
      if c1 = '.' ∨ c1 = '-' then rest1.dropWhile Char.isWhitespace
      else if c1.isLower then
        match rest1 with
        | [] => s
        | c2 :: rest2 =>
          if c2 = '.' ∨ c2 = '-' then rest2.dropWhile Char.isWhitespace
          else s
      else s

/-- Splits a character list on the slash character with JavaScript
split semantics: empty input gives one empty segment, separators at the
ends give empty segments. -/
def splitOnSlash : List Char → List (List Char)
  | [] => [[]]
  | c :: t =>
    if c = '/' then [] :: splitOnSlash t
    else
      match splitOnSlash t with
      | [] => [[c]]
      | h :: r => (c :: h) :: r

/-- Title extraction from a source path, translated from
extractTitleFromPath: take the part after the last occurrence of the
vault/ marker (the whole path when absent), drop a trailing .md
extension, split on slashes, strip ordering marks from each segment; if
the segments include Classes, there are at least two of them, and the
last is not the generic Character Classes placeholder, the title is that
last segment followed by the word Class; otherwise the segments other
than rules are joined into a breadcrumb. -/
def extractTitleFromPath (filepath : String) : String :=
  let chars := filepath.data
  let marker := "vault/".data
  let hits := (List.range (chars.length + 1)).filter
    (fun i => marker.isPrefixOf (chars.drop i))
  let relativePath :=
    match hits.getLast? with
    | some i => chars.drop (i + marker.length)
    | none => chars
  let trimmed :=
    if ".md".data.isSuffixOf relativePath then
      relativePath.take (relativePath.length - 3)
    else relativePath
  let segments := (splitOnSlash trimmed).map stripOrderMark
  let breadcrumb := String.intercalate " > "
    ((segments.filter (fun s => s ≠ "rules".data)).map (fun s => String.mk s))
  if segments.contains "Classes".data ∧ 2 ≤ segments.length then
    if segments.getLastD [] ≠ "Character Classes".data then
      String.mk (segments.getLastD []) ++ " Class"
    else breadcrumb
  else breadcrumb

/-- The filepath used for title extraction: the source metadata field when
it is a string, the literal unknown path otherwise (models the typeof
check in enrichChunksWithMetadata). -/
def sourcePathOf (m : Metadata) : String :=
  match m.source with
  | SourceVal.str s => s
  | _ => "unknown"

/-- Enrichment: prepends the bracketed extracted title and a newline to
each chunk's content, leaving every other field (the whole metadata
record) unchanged. -/
def enrichChunksWithMetadata (chunks : List Chunk) : List Chunk :=
  chunks.map (fun chunk =>
    { chunk with
        pageContent :=
          "[" ++ extractTitleFromPath (sourcePathOf chunk.metadata) ++ "]\n"
            ++ chunk.pageContent })

/-- Row handed to the vector store for one chunk: its content and its
metadata, passed through unchanged (the script computes nothing else per
chunk before the insert). -/
structure IndexRecord where
  content : String
  metadata : Metadata
deriving DecidableEq

/-- Store operations issued by the ingest script, in order: the delete of
every existing row, and the insert performed by the vector store for a
batch of documents. -/
inductive StoreOp where
  | deleteAllRows : StoreOp
  | insertRecords : List IndexRecord → StoreOp
deriving DecidableEq

/-- Record built from a chunk at the store boundary. -/
def chunkRecord (c : Chunk) : IndexRecord :=
  { content := c.pageContent, metadata := c.metadata }

/-- Store operations issued by createVectorIndex: clear all existing rows,
then insert one record per chunk. -/
def createVectorIndexOps (chunks : List Chunk) : List StoreOp :=
  [StoreOp.deleteAllRows, StoreOp.insertRecords (chunks.map chunkRecord)]

/-- The guarded main of the ingest script, modelled as the store
operations it issues: split/merge/enrich the chunks, then either throw
the empty-result Error (no store operation issued) or run
createVectorIndex. The document loading and splitting stages are external
collaborators; main is modelled from their output chunk sequence on. -/
def mainOps (chunks : List Chunk) : Except String (List StoreOp) :=
  let mergedChunks := mergeSmallChunks chunks
  let enrichedChunks := enrichChunksWithMetadata mergedChunks
  if enrichedChunks.length = 0 then
    Except.error "Enriched chunks array is empty after processing."
  else
    Except.ok (createVectorIndexOps enrichedChunks)

/-- Effect of one store operation on the table contents: the delete
removes every row, the insert appends the given records. -/
def applyStoreOp (rows : List IndexRecord) : StoreOp → List IndexRecord
  | StoreOp.deleteAllRows => []
  | StoreOp.insertRecords rs => rows ++ rs

/-- Runs a sequence of store operations against the table. -/
def runStoreOps (rows : List IndexRecord) (ops : List StoreOp) : List IndexRecord :=
  ops.foldl applyStoreOp rows

/-- Folds a head chunk with a list of follower chunks, joining contents
with the blank-line separator and keeping the head's metadata; the shape
every merged output chunk takes. -/
def combineAll (c : Chunk) (cs : List Chunk) : Chunk :=
  cs.foldl mergeCombine c

/-- Input chunks of a merge block: the head followed by the chunks merged
into it. -/
def blockChunks (b : Chunk × List Chunk) : List Chunk := b.1 :: b.2

/-- Output chunk of a merge block. -/
def blockJoin (b : Chunk × List Chunk) : Chunk := combineAll b.1 b.2

/-- Every chunk merged into a block shares the head chunk's source. -/
def sameSourceBlock (b : Chunk × List Chunk) : Prop :=
  ∀ x ∈ b.2, x.metadata.source = b.1.metadata.source

/-- Total content length of a chunk list. -/
def totalLen (l : List Chunk) : Nat :=
  (l.map (fun c => c.pageContent.length)).sum

/-- Two chunks that share a source and are both under the minimum size;
the configuration the merger's output must not contain adjacently. -/
def bothSmallSameSource (a b : Chunk) : Prop :=
  a.metadata.source = b.metadata.source ∧
    a.pageContent.length < MIN_CHUNK_SIZE ∧
    b.pageContent.length < MIN_CHUNK_SIZE

/-- Sample source path metadata used by the concrete evaluations. -/
def mdA : Metadata := { source := SourceVal.str "vault/a.md", extra := [] }

/-- Sample chunk with a short content and the sample source. -/
def c0 : Chunk := { pageContent := "Roll 1d6", metadata := mdA }

/-- Sample undersized chunk of thirty characters with the sample source. -/
def w30 : Chunk := { pageContent := String.mk (List.replicate 30 'a'), metadata := mdA }

/-- Sample undersized chunk of sixty characters with the sample source. -/
def w60 : Chunk := { pageContent := String.mk (List.replicate 60 'x'), metadata := mdA }

/-- Sample chunk whose source metadata field is the undefined value. -/
def cu : Chunk :=
  { pageContent := "Roll 1d6", metadata := { source := SourceVal.undef, extra := [] } }

/-- Sample pre-existing store row, used to exercise re-ingestion. -/
def recB : IndexRecord := { content := "stale row", metadata := mdA }

/-- Store operations issued by a successful run of main on the sample
corpus consisting of the single chunk c0. -/
def opsA : List StoreOp :=
  createVectorIndexOps (enrichChunksWithMetadata (mergeSmallChunks [c0]))

/-- Length of a combined chunk: both contents plus the two separator
characters. -/
theorem mergeCombine_length (a b : Chunk) :
    (mergeCombine a b).pageContent.length =
      a.pageContent.length + 2 + b.pageContent.length := by
  show (a.pageContent ++ "\n\n" ++ b.pageContent).length = _
  rw [String.length_append, String.length_append]
  have hsep : ("\n\n" : String).length = 2 := rfl
  omega

/-- Unfolding of combineAll over a cons. -/
theorem combineAll_cons (c x : Chunk) (t : List Chunk) :
    combineAll c (x :: t) = combineAll (mergeCombine c x) t := rfl

/-- Combining keeps the metadata of the head chunk. -/
theorem combineAll_metadata (c : Chunk) (cs : List Chunk) :
    (combineAll c cs).metadata = c.metadata := by
  induction cs generalizing c with
  | nil => rfl
  | cons x t ih => rw [combineAll_cons, ih]; rfl

/-- Combining never shrinks the head chunk's content. -/
theorem combineAll_length_le (c : Chunk) (cs : List Chunk) :
    c.pageContent.length ≤ (combineAll c cs).pageContent.length := by
  induction cs generalizing c with
  | nil => exact Nat.le_refl _
  | cons x t ih =>
    rw [combineAll_cons]
    refine Nat.le_trans ?_ (ih (mergeCombine c x))
    rw [mergeCombine_length]
    omega

/-- Unfolding of combineAll over a snoc. -/
theorem combineAll_snoc (c : Chunk) (cs : List Chunk) (x : Chunk) :
    combineAll c (cs ++ [x]) = mergeCombine (combineAll c cs) x := by
  simp [combineAll, List.foldl_append]

/-- Total content length of a combined chunk. -/
theorem combineAll_length (c : Chunk) (cs : List Chunk) :
    (combineAll c cs).pageContent.length =
      c.pageContent.length + totalLen cs + 2 * cs.length := by
  induction cs generalizing c with
  | nil => simp [combineAll, totalLen]
  | cons x t ih =>
    rw [combineAll_cons, ih, mergeCombine_length]
    simp [totalLen, List.map_cons, List.sum_cons]
    omega

/-- Total length distributes over cons. -/
theorem totalLen_cons (c : Chunk) (l : List Chunk) :
    totalLen (c :: l) = c.pageContent.length + totalLen l := by
  simp [totalLen]

/-- Total length distributes over append. -/
theorem totalLen_append (l1 l2 : List Chunk) :
    totalLen (l1 ++ l2) = totalLen l1 + totalLen l2 := by
  simp [totalLen]

/-- Extends a chain by one element related to the old last element. -/
theorem chain'_snoc {α : Type} {R : α → α → Prop} {l : List α} {x : α}
    (h : List.Chain' R l) (hx : ∀ c, l.getLast? = some c → R c x) :
    List.Chain' R (l ++ [x]) := by
  rw [List.chain'_append]
  refine ⟨h, List.chain'_singleton x, ?_⟩
  intro a ha b hb
  simp only [List.head?_cons, Option.mem_def, Option.some.injEq] at hb
  subst hb
  exact hx a ha

/-- A run of same-source chunks whose full combination stays under the
minimum size is entirely absorbed into the pending accumulator. -/
theorem run_fold (cs : List Chunk) : ∀ (p : Chunk) (m : List Chunk),
    (∀ x ∈ cs, x.metadata.source = p.metadata.source) →
    (combineAll p cs).pageContent.length < MIN_CHUNK_SIZE →
    List.foldl mergeStep { merged := m, pending := some p } cs =
      { merged := m, pending := some (combineAll p cs) } := by
  induction cs with
  | nil => intro p m _ _; rfl
  | cons x t ih =>
    intro p m hsrc htot
    have hx : p.metadata.source = x.metadata.source := (hsrc x (by simp)).symm
    have hcomb : (mergeCombine p x).pageContent.length < MIN_CHUNK_SIZE := by
      have hle := combineAll_length_le (mergeCombine p x) t
      rw [combineAll_cons] at htot
      omega
    have hstep : mergeStep { merged := m, pending := some p } x =
        { merged := m, pending := some (mergeCombine p x) } := by
      simp [mergeStep, hx, hcomb]
    rw [List.foldl_cons, hstep, combineAll_cons]
    rw [combineAll_cons] at htot
    refine ih (mergeCombine p x) m ?_ htot
    intro y hy
    exact hsrc y (List.mem_cons_of_mem x hy)

/-- C1 counterexample: three consecutive same-source chunks, each sixty
characters and thus each shorter than the minimum chunk size of one
hundred, are NOT folded into a single output chunk by the iterative-fold
merger: the first two combine to 122 characters, which reaches the
minimum and is emitted, and the third chunk is emitted separately, so the
output has two chunks. This refutes the claim that every run of three or
more consecutive undersized same-source chunks folds into one chunk. -/
theorem mergeSmallChunks_run_of_three_not_single :
    w60.pageContent.length < MIN_CHUNK_SIZE ∧
    w60.metadata.source = SourceVal.str "vault/a.md" ∧
    (mergeSmallChunks [w60, w60, w60]).length = 2 := by decide

/-- C1 (amended): a run of consecutive chunks from the same source whose
total combined content, separators included, stays shorter than
minChunkSize is folded by the iterative-fold merger into a single output
chunk; the merger re-checks the combined content's length after each
merge and keeps the combination pending while it remains undersized
(each chunk of such a run is itself undersized, its length being bounded
by the combined length). -/
theorem mergeSmallChunks_small_run_folds (c : Chunk) (cs : List Chunk)
    (hsrc : ∀ x ∈ cs, x.metadata.source = c.metadata.source)
    (htot : (combineAll c cs).pageContent.length < MIN_CHUNK_SIZE) :
    mergeSmallChunks (c :: cs) = [combineAll c cs] := by
  have hc : c.pageContent.length < MIN_CHUNK_SIZE :=
    Nat.lt_of_le_of_lt (combineAll_length_le c cs) htot
  have h0 : mergeStep { merged := [], pending := none } c =
      { merged := [], pending := some c } := by
    simp [mergeStep, hc]
  unfold mergeSmallChunks
  rw [List.foldl_cons, h0, run_fold cs c [] hsrc htot]
  rfl

/-- Witness for the amended C1: three thirty-character same-source chunks
combine to 94 characters, still undersized, and fold into one chunk. -/
theorem mergeSmallChunks_small_run_folds_witness :
    mergeSmallChunks [w30, w30, w30] = [combineAll w30 [w30, w30]] :=
  mergeSmallChunks_small_run_folds w30 [w30, w30] (by decide) (by decide)

/-- C2: whenever the enriched chunk sequence is empty, main throws the
empty-result Error before issuing any store operation: the result is the
error value, which carries no operation list, so neither the destructive
delete-all nor any insert reaches the store. -/
theorem mainOps_empty_aborts (chunks : List Chunk)
    (h : (enrichChunksWithMetadata (mergeSmallChunks chunks)).length = 0) :
    mainOps chunks = Except.error "Enriched chunks array is empty after processing." := by
  simp only [mainOps]
  rw [if_pos h]

/-- Witness for C2 at the empty corpus: zero input chunks yield zero
enriched chunks and main aborts with the empty-result error. -/
theorem mainOps_empty_aborts_witness :
    mainOps [] = Except.error "Enriched chunks array is empty after processing." :=
  mainOps_empty_aborts [] rfl

/-- C3 counterexample: on the one-chunk corpus c0, a successful main run
issues exactly a delete of every existing row followed by an insert whose
single record carries the enriched content and the chunk's metadata
passed through unchanged; the metadata's field list is empty, so no
contentHash field of any kind is supplied to the store, and the store
interaction begins with a destructive delete rather than a hash-keyed
upsert. This refutes the claim that the core supplies a contentHash per
chunk and that deduplication rests on a hash-keyed upsert. -/
theorem createVectorIndex_supplies_no_hash :
    mainOps [c0] = Except.ok [StoreOp.deleteAllRows,
      StoreOp.insertRecords [{ content := "[a]\nRoll 1d6", metadata := mdA }]] ∧
    mdA.extra = [] := ⟨rfl, rfl⟩

/-- C3 (amended): running the pipeline twice on unchanged input creates
no duplicate index records, but not through any contentHash upsert key:
the script computes no hash, and instead createVectorIndex deletes all
existing rows before inserting, so re-running a successful ingestion
leaves the store contents unchanged from whatever starting state. -/
theorem ingest_rerun_idempotent (chunks : List Chunk) (ops : List StoreOp)
    (rows : List IndexRecord) (h : mainOps chunks = Except.ok ops) :
    runStoreOps (runStoreOps rows ops) ops = runStoreOps rows ops := by
  simp only [mainOps] at h
  split at h
  · exact absurd h (by simp)
  · have hops : ops = createVectorIndexOps
        (enrichChunksWithMetadata (mergeSmallChunks chunks)) :=
      (Except.ok.injEq _ _).mp h.symm
    subst hops
    simp [createVectorIndexOps, runStoreOps, applyStoreOp]

/-- Witness for the amended C3: a second run of the sample ingestion over
a store that already holds a stale row produces the same rows as the
first run. -/
theorem ingest_rerun_idempotent_witness :
    runStoreOps (runStoreOps [recB] opsA) opsA = runStoreOps [recB] opsA :=
  ingest_rerun_idempotent [c0] opsA [recB] rfl

/-- C7: the iterative-fold variant and the single-lookahead variant of
mergeSmallChunks are not extensionally equal: on three consecutive
undersized same-source chunks the iterative fold re-checks the combined
size and keeps folding, producing one chunk, while the single-lookahead
merge combines only the first pair and emits the third chunk separately,
producing two. -/
theorem mergeSmallChunks_variants_differ :
    (∀ x ∈ [w30, w30, w30], x.pageContent.length < MIN_CHUNK_SIZE ∧
      x.metadata.source = SourceVal.str "vault/a.md") ∧
    mergeSmallChunks [w30, w30, w30] ≠ mergeSmallChunksLookahead [w30, w30, w30] := by
  decide

/-- C8: the three specified title extractions: a numbered class file maps
to the class-name title, a rules path maps to the breadcrumb with the
rules segment dropped, and the generic Character Classes placeholder
falls through to the breadcrumb instead of the class special case. -/
theorem extractTitleFromPath_examples :
    extractTitleFromPath "vault/Classes/02. Thief.md" = "Thief Class" ∧
    extractTitleFromPath "vault/rules/Combat/Initiative.md" = "Combat > Initiative" ∧
    extractTitleFromPath "vault/Classes/Character Classes.md" = "Classes > Character Classes" := by
  decide

/-- C9: enrichment maps each chunk, at its position, to a chunk whose
content is the bracketed extracted title, a newline, and the original
content, with the metadata record (and hence every other field)
unchanged; the transform is a pure function of the input list. -/
theorem enrichChunksWithMetadata_spec (chunks : List Chunk) (i : Nat) (c : Chunk)
    (h : chunks[i]? = some c) :
    (enrichChunksWithMetadata chunks)[i]? =
      some { pageContent :=
              "[" ++ extractTitleFromPath (sourcePathOf c.metadata) ++ "]\n"
                ++ c.pageContent
             metadata := c.metadata } := by
  simp only [enrichChunksWithMetadata, List.getElem?_map, h, Option.map_some']

/-- Witness for C9 at the sample chunk. -/
theorem enrichChunksWithMetadata_spec_witness :
    (enrichChunksWithMetadata [c0])[0]? =
      some { pageContent :=
              "[" ++ extractTitleFromPath (sourcePathOf c0.metadata) ++ "]\n"
                ++ c0.pageContent
             metadata := c0.metadata } :=
  enrichChunksWithMetadata_spec [c0] 0 c0 rfl

/-- C10: a chunk whose source metadata field is not a string does not
make enrichment fail: the unknown placeholder path is used, the title
extractor maps it to itself, and the enriched content is the bracketed
unknown marker, a newline, and the original content, metadata unchanged. -/
theorem enrich_nonstring_source (chunks : List Chunk) (i : Nat) (c : Chunk)
    (h : chunks[i]? = some c)
    (hs : ∀ s, c.metadata.source ≠ SourceVal.str s) :
    (enrichChunksWithMetadata chunks)[i]? =
      some { pageContent := "[unknown]\n" ++ c.pageContent
             metadata := c.metadata } := by
  have hpath : sourcePathOf c.metadata = "unknown" := by
    rcases hsrc : c.metadata.source with s | _ | id
    · exact absurd hsrc (hs s)
    · simp [sourcePathOf, hsrc]
    · simp [sourcePathOf, hsrc]
  have htitle : ("[" ++ extractTitleFromPath "unknown" ++ "]\n" : String) = "[unknown]\n" := by
    decide
  simp only [enrichChunksWithMetadata, List.getElem?_map, h, Option.map_some', hpath, htitle]

/-- Witness for C10 at a chunk whose source field is undefined. -/
theorem enrich_nonstring_source_witness :
    (enrichChunksWithMetadata [cu])[0]? =
      some { pageContent := "[unknown]\n" ++ cu.pageContent
             metadata := cu.metadata } :=
  enrich_nonstring_source [cu] 0 cu rfl (fun _ h => SourceVal.noConfusion h)

/-- Invariant carried through the iterative-fold reduce for the adjacency
property: the output so far has no adjacent undersized same-source pair,
and moreover, when no chunk is pending the last output chunk is not
undersized, while a pending chunk never forms a forbidden pair with the
last output chunk. -/
def MergeInv (st : MergeAcc) : Prop :=
  List.Chain' (fun a b => ¬ bothSmallSameSource a b) st.merged ∧
  match st.pending with
  | none => ∀ c, st.merged.getLast? = some c → ¬ c.pageContent.length < MIN_CHUNK_SIZE
  | some p => ∀ c, st.merged.getLast? = some c → ¬ bothSmallSameSource c p

/-- One merge step preserves the adjacency invariant. -/
theorem mergeStep_inv (st : MergeAcc) (c : Chunk) (h : MergeInv st) :
    MergeInv (mergeStep st c) := by
  obtain ⟨m, pd⟩ := st
  obtain ⟨hchain, hrest⟩ := h
  cases pd with
  | none =>
    by_cases hc : c.pageContent.length < MIN_CHUNK_SIZE
    · refine ⟨?_, ?_⟩ <;> simp only [mergeStep, if_pos hc]
      · exact hchain
      · intro c' hc' hb
        exact hrest c' hc' hb.2.1
    · constructor <;> simp only [mergeStep, if_neg hc]
      · refine chain'_snoc hchain ?_
        intro c' hc' hb
        exact hrest c' hc' hb.2.1
      · intro c' hc'
        rw [List.getLast?_concat] at hc'
        cases hc'
        exact hc
  | some p =>
    by_cases hs : p.metadata.source = c.metadata.source
    · by_cases hcs : (mergeCombine p c).pageContent.length < MIN_CHUNK_SIZE
      · constructor <;> simp only [mergeStep, if_pos hs, if_pos hcs]
        · exact hchain
        · intro c' hc' hb
          refine hrest c' hc' ⟨hb.1, hb.2.1, ?_⟩
          have := mergeCombine_length p c
          have hsm := hb.2.2
          omega
      · constructor <;> simp only [mergeStep, if_pos hs, if_neg hcs]
        · refine chain'_snoc hchain ?_
          intro c' hc' hb
          exact hcs hb.2.2
        · intro c' hc'
          rw [List.getLast?_concat] at hc'
          cases hc'
          exact hcs
    · by_cases hc : c.pageContent.length < MIN_CHUNK_SIZE
      · constructor <;> simp only [mergeStep, if_neg hs, if_pos hc]
        · exact chain'_snoc hchain hrest
        · intro c' hc' hb
          rw [List.getLast?_concat] at hc'
          cases hc'
          exact hs hb.1
      · constructor <;> simp only [mergeStep, if_neg hs, if_neg hc]
        · refine chain'_snoc (chain'_snoc hchain hrest) ?_
          intro c' hc' hb
          rw [List.getLast?_concat] at hc'
          cases hc'
          exact hs hb.1
        · intro c' hc'
          rw [List.getLast?_concat] at hc'
          cases hc'
          exact hc

/-- The whole reduce preserves the adjacency invariant. -/
theorem foldl_mergeInv (l : List Chunk) : ∀ st, MergeInv st →
    MergeInv (List.foldl mergeStep st l) := by
  induction l with
  | nil => intro st h; exact h
  | cons c t ih =>
    intro st h
    rw [List.foldl_cons]
    exact ih (mergeStep st c) (mergeStep_inv st c h)

/-- C4: the iterative-fold merger's output never contains two adjacent
chunks that share a source and are both shorter than minChunkSize; in
particular the only below-minimum chunks that remain have no undersized
same-source neighbour, covering the allowed single trailing small chunk. -/
theorem mergeSmallChunks_no_adjacent_small (chunks : List Chunk) :
    List.Chain' (fun a b => ¬ bothSmallSameSource a b) (mergeSmallChunks chunks) := by
  have hinit : MergeInv { merged := [], pending := none } := by
    refine ⟨List.chain'_nil, ?_⟩
    intro c hc
    simp at hc
  have hinv := foldl_mergeInv chunks { merged := [], pending := none } hinit
  unfold mergeSmallChunks
  rcases hfold : List.foldl mergeStep { merged := [], pending := none } chunks with ⟨m, pd⟩
  rw [hfold] at hinv
  cases pd with
  | none => exact hinv.1
  | some p => exact chain'_snoc hinv.1 hinv.2

/-- Description of a reachable merge state as a partition of the chunks
processed so far: the emitted chunks are the joins of completed blocks,
the pending chunk (when present) is the join of one more block still
open, the processed chunks are exactly the blocks' chunks in order, and
every block only groups chunks of one source. -/
def PartDesc (processed : List Chunk) (st : MergeAcc)
    (bs : List (Chunk × List Chunk)) (pb : Option (Chunk × List Chunk)) : Prop :=
  st.merged = bs.map blockJoin ∧
  st.pending = Option.map blockJoin pb ∧
  processed = (bs.map blockChunks).flatten ++ (Option.map blockChunks pb).getD [] ∧
  (∀ b ∈ bs, sameSourceBlock b) ∧
  (∀ b, pb = some b → sameSourceBlock b)

/-- Unfolding lemma: the join of a block extended by one chunk. -/
theorem blockJoin_snoc (b : Chunk × List Chunk) (x : Chunk) :
    blockJoin (b.1, b.2 ++ [x]) = mergeCombine (blockJoin b) x :=
  combineAll_snoc b.1 b.2 x

/-- One merge step extends the partition description by the current
chunk. -/
theorem partStep (processed : List Chunk) (st : MergeAcc) (c : Chunk)
    (bs : List (Chunk × List Chunk)) (pb : Option (Chunk × List Chunk))
    (h : PartDesc processed st bs pb) :
    ∃ bs2 pb2, PartDesc (processed ++ [c]) (mergeStep st c) bs2 pb2 := by
  obtain ⟨m, pd⟩ := st
  obtain ⟨h1, h2, h3, h4, h5⟩ := h
  simp only at h1 h2 h3
  cases pb with
  | none =>
    simp only [Option.map_none', Option.getD_none, List.append_nil] at h2 h3
    subst h1 h2
    by_cases hc : c.pageContent.length < MIN_CHUNK_SIZE
    · refine ⟨bs, some (c, []), ?_, ?_, ?_, h4, ?_⟩
      · simp [mergeStep, hc]
      · simp [mergeStep, hc, blockJoin, combineAll]
      · simp [mergeStep, hc, h3, blockChunks]
      · intro b hb
        cases hb
        intro x hx
        cases hx
    · refine ⟨bs ++ [(c, [])], none, ?_, ?_, ?_, ?_, ?_⟩
      · simp [mergeStep, hc, blockJoin, combineAll]
      · simp [mergeStep, hc]
      · simp [mergeStep, hc, h3, blockChunks]
      · intro b hb
        rcases List.mem_append.mp hb with hb | hb
        · exact h4 b hb
        · cases List.mem_singleton.mp hb
          intro x hx
          cases hx
      · intro b hb
        cases hb
  | some b0 =>
    simp only [Option.map_some', Option.getD_some] at h2 h3
    subst h1 h2
    have hmeta : (blockJoin b0).metadata = b0.1.metadata := combineAll_metadata b0.1 b0.2
    by_cases hs : (blockJoin b0).metadata.source = c.metadata.source
    · by_cases hcs : (mergeCombine (blockJoin b0) c).pageContent.length < MIN_CHUNK_SIZE
      · refine ⟨bs, some (b0.1, b0.2 ++ [c]), ?_, ?_, ?_, h4, ?_⟩
        · simp [mergeStep, hs, hcs]
        · simp [mergeStep, hs, hcs, blockJoin_snoc]
        · simp [mergeStep, hs, hcs, h3, blockChunks]
        · intro b hb
          cases hb
          intro x hx
          rcases List.mem_append.mp hx with hx | hx
          · exact h5 b0 rfl x hx
          · cases List.mem_singleton.mp hx
            rw [hmeta] at hs
            exact hs.symm
      · refine ⟨bs ++ [(b0.1, b0.2 ++ [c])], none, ?_, ?_, ?_, ?_, ?_⟩
        · simp [mergeStep, hs, hcs, blockJoin_snoc]
        · simp [mergeStep, hs, hcs]
        · simp [mergeStep, hs, hcs, h3, blockChunks]
        · intro b hb
          rcases List.mem_append.mp hb with hb | hb
          · exact h4 b hb
          · cases List.mem_singleton.mp hb
            intro x hx
            rcases List.mem_append.mp hx with hx | hx
            · exact h5 b0 rfl x hx
            · cases List.mem_singleton.mp hx
              rw [hmeta] at hs
              exact hs.symm
        · intro b hb
          cases hb
    · by_cases hc : c.pageContent.length < MIN_CHUNK_SIZE
      · have hstep : mergeStep ⟨List.map blockJoin bs, some (blockJoin b0)⟩ c =
            ⟨List.map blockJoin bs ++ [blockJoin b0], some c⟩ := by
          simp only [mergeStep]
          rw [if_neg hs, if_pos hc]
        refine ⟨bs ++ [b0], some (c, []), ?_, ?_, ?_, ?_, ?_⟩
        · rw [hstep]
          simp
        · rw [hstep]
          simp [blockJoin, combineAll]
        · simp [h3, blockChunks]
        · intro b hb
          rcases List.mem_append.mp hb with hb | hb
          · exact h4 b hb
          · cases List.mem_singleton.mp hb
            exact h5 b0 rfl
        · intro b hb
          cases hb
          intro x hx
          cases hx
      · have hstep : mergeStep ⟨List.map blockJoin bs, some (blockJoin b0)⟩ c =
            ⟨List.map blockJoin bs ++ [blockJoin b0] ++ [c], none⟩ := by
          simp only [mergeStep]
          rw [if_neg hs, if_neg hc]
        refine ⟨bs ++ [b0, (c, [])], none, ?_, ?_, ?_, ?_, ?_⟩
        · rw [hstep]
          simp [blockJoin, combineAll]
        · rw [hstep]
          rfl
        · simp [h3, blockChunks]
        · intro b hb
          rcases List.mem_append.mp hb with hb | hb
          · exact h4 b hb
          · rcases List.mem_cons.mp hb with hb | hb
            · cases hb
              exact h5 b0 rfl
            · cases List.mem_singleton.mp hb
              intro x hx
              cases hx
        · intro b hb
          cases hb

/-- The whole reduce keeps the chunks processed so far described by a
partition into blocks. -/
theorem partInv_foldl (l : List Chunk) : ∀ (processed : List Chunk) (st : MergeAcc),
    (∃ bs pb, PartDesc processed st bs pb) →
    ∃ bs pb, PartDesc (processed ++ l) (List.foldl mergeStep st l) bs pb := by
  induction l with
  | nil =>
    intro pr st h
    simpa using h
  | cons c t ih =>
    intro pr st h
    obtain ⟨bs, pb, hd⟩ := h
    have h2 := ih (pr ++ [c]) (mergeStep st c) (partStep pr st c bs pb hd)
    rw [List.foldl_cons]
    simpa [List.append_assoc] using h2

/-- The merger's output is the list of blockwise joins of a partition of
its input into consecutive same-source blocks. -/
theorem mergeSmallChunks_partition (chunks : List Chunk) :
    ∃ bs : List (Chunk × List Chunk),
      chunks = (bs.map blockChunks).flatten ∧
      mergeSmallChunks chunks = bs.map blockJoin ∧
      ∀ b ∈ bs, sameSourceBlock b := by
  have h0 : ∃ bs pb, PartDesc [] { merged := [], pending := none } bs pb := by
    refine ⟨[], none, rfl, rfl, rfl, ?_, ?_⟩
    · intro b hb
      cases hb
    · intro b hb
      cases hb
  have h := partInv_foldl chunks [] { merged := [], pending := none } h0
  rw [List.nil_append] at h
  obtain ⟨bs, pb, h1, h2, h3, h4, h5⟩ := h
  cases pb with
  | none =>
    simp only [Option.map_none', Option.getD_none, List.append_nil] at h2 h3
    refine ⟨bs, h3, ?_, h4⟩
    unfold mergeSmallChunks
    rcases hst : List.foldl mergeStep { merged := [], pending := none } chunks with ⟨m, pd⟩
    rw [hst] at h1 h2
    simp only at h1 h2
    subst h2
    exact h1
  | some b0 =>
    simp only [Option.map_some', Option.getD_some] at h2 h3
    refine ⟨bs ++ [b0], ?_, ?_, ?_⟩
    · rw [h3]
      simp
    · unfold mergeSmallChunks
      rcases hst : List.foldl mergeStep { merged := [], pending := none } chunks with ⟨m, pd⟩
      rw [hst] at h1 h2
      simp only at h1 h2
      subst h2
      simp [h1]
    · intro b hb
      rcases List.mem_append.mp hb with hb | hb
      · exact h4 b hb
      · cases List.mem_singleton.mp hb
        exact h5 b0 rfl

/-- Total content length of the blockwise joins: the blocks' total
content plus two separator characters per merged-in chunk. -/
theorem blocks_totalLen (bs : List (Chunk × List Chunk)) :
    totalLen (bs.map blockJoin) =
      totalLen ((bs.map blockChunks).flatten) +
        2 * ((bs.map (fun b => b.2.length)).sum) := by
  induction bs with
  | nil => simp [totalLen]
  | cons b t ih =>
    simp only [List.map_cons, List.flatten_cons, totalLen_cons, totalLen_append,
      List.sum_cons, ih]
    have hj : (blockJoin b).pageContent.length =
        b.1.pageContent.length + totalLen b.2 + 2 * b.2.length :=
      combineAll_length b.1 b.2
    have hbc : totalLen (blockChunks b) = b.1.pageContent.length + totalLen b.2 :=
      totalLen_cons b.1 b.2
    omega

/-- Number of chunks described by a block list. -/
theorem blocks_length (bs : List (Chunk × List Chunk)) :
    ((bs.map blockChunks).flatten).length =
      bs.length + (bs.map (fun b => b.2.length)).sum := by
  induction bs with
  | nil => rfl
  | cons b t ih =>
    simp only [List.map_cons, List.flatten_cons, List.length_append, List.sum_cons,
      List.length_cons, ih, blockChunks]
    omega

/-- C5: the merger drops no content and only inserts separators: the
input is partitioned, in order, into consecutive blocks whose contents
each output chunk joins with the blank-line separator (so stripping the
inserted separators from the output reproduces the input concatenation
in order), and the total output character count equals the total input
character count plus two separator characters per merged-away chunk. -/
theorem mergeSmallChunks_preserves_content (chunks : List Chunk) :
    ∃ bs : List (Chunk × List Chunk),
      chunks = (bs.map blockChunks).flatten ∧
      mergeSmallChunks chunks = bs.map blockJoin ∧
      totalLen (mergeSmallChunks chunks) =
        totalLen chunks + 2 * (chunks.length - (mergeSmallChunks chunks).length) := by
  obtain ⟨bs, h1, h2, _⟩ := mergeSmallChunks_partition chunks
  refine ⟨bs, h1, h2, ?_⟩
  rw [h2, h1, blocks_totalLen, blocks_length, List.length_map]
  omega

/-- C6: the merger never combines chunks whose sources differ and
preserves relative order and source grouping: the input splits, in
order, into consecutive blocks, every block groups chunks of a single
source, and each output chunk is exactly the join of one block — in
particular a pending chunk at a source boundary is emitted before any
chunk of the next source contributes to the output. -/
theorem mergeSmallChunks_source_discipline (chunks : List Chunk) :
    ∃ bs : List (Chunk × List Chunk),
      chunks = (bs.map blockChunks).flatten ∧
      mergeSmallChunks chunks = bs.map blockJoin ∧
      ∀ b ∈ bs, sameSourceBlock b :=
  mergeSmallChunks_partition chunks
